import Mathlib

/-!
Shallow embedding of the dcb.rs Time Warp core: the data model (`src/models.rs`),
the rollback manager (`src/rollback_manager.rs`) and the priority message queue
(`src/message_queue.rs`), together with theorems settling the specification claims.

Rust `u64`/`u16`/`u32` values are modelled as `Nat` (the only arithmetic performed
on them is `lvt + 1` in `take_checkpoint`, which panics on overflow in Rust debug
builds, so no wrap-around semantics are observable). `LinkedList` and `Vec` are
modelled as `List`, with `push_back`/`insert`/`remove` translated positionally.
`HashSet<Message>` is modelled as a duplicate-free `List Message` built by
`msgInsert`. Fallible methods return their `Result` together with the
(possibly updated) manager, mirroring `&mut self`: on every error path the
manager is returned exactly as it was at the point of the early `return`.
-/

namespace DCB

abbrev Timestamp := Nat
abbrev ComponentId := Nat

/-- `Message` from `src/models.rs`. The Rust field `from` is a Lean keyword,
hence the guillemets. -/
structure Message where
  sent_ts : Timestamp
  exec_ts : Timestamp
  «from» : ComponentId
  «to» : ComponentId
  payload : String
  path : String
  id : Nat
  is_anti : Bool
deriving DecidableEq, Repr

/-- `Checkpoint` from `src/models.rs`. -/
structure Checkpoint (σ : Type) where
  timestamp : Timestamp
  state : σ
deriving DecidableEq, Repr

/-- `Message::is_inverse_of` from `src/models.rs`: identical
`(sent_ts, exec_ts, from, to, id)` and opposite `is_anti`. -/
def Message.is_inverse_of (a b : Message) : Bool :=
  a.sent_ts == b.sent_ts && a.exec_ts == b.exec_ts && a.«from» == b.«from» &&
    a.«to» == b.«to» && a.id == b.id && a.is_anti != b.is_anti

/-- `Message::get_anti` from `src/models.rs`: fails on an anti-message,
otherwise returns the clone with `is_anti = true`. -/
def Message.get_anti (m : Message) : Except Unit Message :=
  if m.is_anti then .error () else .ok { m with is_anti := true }

/-- `Failure` from `src/rollback_manager.rs`. -/
inductive Failure where
  | timeViolation
  | insufficientCheckpoints
  | invalidMessage
deriving DecidableEq, Repr

/-- `RollbackManager<State>` from `src/rollback_manager.rs`. -/
structure RollbackManager (σ : Type) where
  state : σ
  lvt : Timestamp
  id : ComponentId
  checkpoints : List (Checkpoint σ)
  received_messages : List Message
  sent_messages : List Message
deriving DecidableEq, Repr

/-- `RollbackManager::new`: installs the genesis checkpoint `{timestamp: 0}`. -/
def RollbackManager.new (id : ComponentId) (initial_state : σ) : RollbackManager σ where
  state := initial_state
  lvt := 0
  id := id
  checkpoints := [{ timestamp := 0, state := initial_state }]
  received_messages := []
  sent_messages := []

/-- `RollbackManager::save_message`. The second component is the manager after
the call (unchanged on every error path, exactly as in the source where the
early returns precede any mutation). -/
def RollbackManager.save_message (rm : RollbackManager σ) (msg : Message) :
    Except Failure Unit × RollbackManager σ :=
  if (msg.«from» ≠ rm.id ∧ msg.«to» ≠ rm.id) ∨ msg.is_anti then
    (.error .invalidMessage, rm)
  else if msg.«from» = rm.id then
    match rm.sent_messages.getLast? with
    | some last =>
      if msg.sent_ts < last.sent_ts then (.error .timeViolation, rm)
      else (.ok (), { rm with sent_messages := rm.sent_messages ++ [msg] })
    | none => (.ok (), { rm with sent_messages := rm.sent_messages ++ [msg] })
  else
    match rm.received_messages.getLast? with
    | some last =>
      if msg.exec_ts < last.exec_ts then (.error .timeViolation, rm)
      else (.ok (), { rm with received_messages := rm.received_messages ++ [msg] })
    | none => (.ok (), { rm with received_messages := rm.received_messages ++ [msg] })

/-- Model of `HashSet::insert`: a duplicate-free list, insertion order irrelevant
to every theorem below (only membership is used). -/
def msgInsert (m : Message) (s : List Message) : List Message :=
  if m ∈ s then s else m :: s

/-- The checkpoint-trimming loop of `rollback`, acting on the REVERSED
checkpoint list (`pop_back` = head of the reverse): drops checkpoints with
`timestamp > ts`; `none` models the `panic!` on exhaustion. -/
def ckptLoop (ts : Timestamp) : List (Checkpoint σ) → Option (List (Checkpoint σ))
  | [] => none
  | c :: rest => if ts < c.timestamp then ckptLoop ts rest else some (c :: rest)

/-- The received-message loop of `rollback`, acting on the REVERSED received
list: pops messages while `exec_ts ≥ ts`, inserting each (unchanged) into the
result set; stops at the first message with `exec_ts < ts`. -/
def rcvLoop (ts : Timestamp) : List Message → List Message → List Message × List Message
  | [], acc => ([], acc)
  | x :: rest, acc =>
    if x.exec_ts < ts then (x :: rest, acc) else rcvLoop ts rest (msgInsert x acc)

/-- The sent-message loop of `rollback`, acting on the REVERSED sent list:
pops messages while `sent_ts ≥ ts`, setting `is_anti := true` on each before
inserting it into the result set. -/
def sentLoop (ts : Timestamp) : List Message → List Message → List Message × List Message
  | [], acc => ([], acc)
  | x :: rest, acc =>
    if x.sent_ts < ts then (x :: rest, acc)
    else sentLoop ts rest (msgInsert { x with is_anti := true } acc)

/-- `RollbackManager::rollback`. Guard order follows the source: `ts > lvt`
first, then the first-checkpoint check, then the three loops. The
`none` / `some []` fallbacks model the source's `panic!`; both are unreachable
because the guard just established that the first checkpoint (the last element
of the reversed list) has `timestamp ≤ ts`. -/
def RollbackManager.rollback (rm : RollbackManager σ) (ts : Timestamp) :
    Except Failure (List Message) × RollbackManager σ :=
  if rm.lvt < ts then (.error .timeViolation, rm)
  else
    match rm.checkpoints.head? with
    | none => (.error .insufficientCheckpoints, rm)
    | some first =>
      if ts < first.timestamp then (.error .insufficientCheckpoints, rm)
      else
        match ckptLoop ts rm.checkpoints.reverse with
        | none => (.error .insufficientCheckpoints, rm)
        | some [] => (.error .insufficientCheckpoints, rm)
        | some (last :: restRev) =>
          let r := rcvLoop ts rm.received_messages.reverse []
          let s := sentLoop ts rm.sent_messages.reverse r.2
          (.ok s.2,
            { rm with
              lvt := last.timestamp
              state := last.state
              checkpoints := (last :: restRev).reverse
              received_messages := r.1.reverse
              sent_messages := s.1.reverse })

/-- `RollbackManager::free`: drops from the head of each list every element
whose key is `≤ ts` (the loops break at the first element with key `> ts`). -/
def RollbackManager.free (rm : RollbackManager σ) (ts : Timestamp) : RollbackManager σ :=
  { rm with
    checkpoints := rm.checkpoints.dropWhile (fun c => c.timestamp ≤ ts)
    received_messages := rm.received_messages.dropWhile (fun m => m.exec_ts ≤ ts)
    sent_messages := rm.sent_messages.dropWhile (fun m => m.sent_ts ≤ ts) }

/-- `RollbackManager::take_checkpoint`: increments `lvt`, then appends a
checkpoint stamped with the incremented `lvt`. -/
def RollbackManager.take_checkpoint (rm : RollbackManager σ) : RollbackManager σ :=
  { rm with
    lvt := rm.lvt + 1
    checkpoints := rm.checkpoints ++ [{ timestamp := rm.lvt + 1, state := rm.state }] }

/-- `RollbackManager::update`: fails `TimeViolation` when `lvt < self.lvt`,
otherwise replaces `state` and `lvt`. -/
def RollbackManager.update (rm : RollbackManager σ) (state : σ) (lvt : Timestamp) :
    Except Failure Unit × RollbackManager σ :=
  if lvt < rm.lvt then (.error .timeViolation, rm)
  else (.ok (), { rm with state := state, lvt := lvt })

/-- `RollbackManager::get_state`. -/
def RollbackManager.get_state (rm : RollbackManager σ) : σ := rm.state

/-- `RollbackManager::get_lvt`. -/
def RollbackManager.get_lvt (rm : RollbackManager σ) : Timestamp := rm.lvt

/-- `RollbackManager::get_sent_messages`. -/
def RollbackManager.get_sent_messages (rm : RollbackManager σ) : List Message :=
  rm.sent_messages

/-- `RollbackManager::get_received_messages`. Faithful to the source, which
returns `&self.sent_messages` here. -/
def RollbackManager.get_received_messages (rm : RollbackManager σ) : List Message :=
  rm.sent_messages

/-- `RollbackManager::get_checkpoints`. -/
def RollbackManager.get_checkpoints (rm : RollbackManager σ) : List (Checkpoint σ) :=
  rm.checkpoints

/-- `Ord for Message` from `src/message_queue.rs`, as the comparator probed by
`binary_search`: `probe.cmp(&msg) = Reverse(probe.exec_ts).cmp(&Reverse(msg.exec_ts))`,
i.e. `msg.exec_ts.cmp(&probe.exec_ts)`. -/
def msgCmp (probe msg : Message) : Ordering :=
  compare msg.exec_ts probe.exec_ts

/-- Rust `slice::binary_search_by` (the post-1.52 early-return implementation):
probes `mid = left + (right - left) / 2`, returns `Ok(mid)` on `Equal`, else
narrows, finally `Err(left)`; either way the value is used as the insertion
index. The recursion is driven by explicit fuel so that the definition reduces
by `rfl`; the loop shrinks `right - left` by at least one per iteration, so any
fuel `≥ right - left` computes the loop's exact result (the fuel-exhausted
branch agrees with the `left = right` exit). The element read is `v[mid]` with
`mid < v.length` whenever `right ≤ v.length`; the `getD` default is never
consulted in that regime. -/
def bsearchGo (v : List Message) (msg : Message) : Nat → Nat → Nat → Nat
  | 0, left, _ => left
  | fuel + 1, left, right =>
    if left < right then
      match msgCmp (v.getD (left + (right - left) / 2) msg) msg with
      | .lt => bsearchGo v msg fuel (left + (right - left) / 2 + 1) right
      | .gt => bsearchGo v msg fuel left (left + (right - left) / 2)
      | .eq => left + (right - left) / 2
    else left

/-- `binary_search(&msg)` over the whole vector. -/
def bsearchIdx (v : List Message) (msg : Message) : Nat :=
  bsearchGo v msg v.length 0 v.length

/-- `MessageQueue` from `src/message_queue.rs`. -/
structure MessageQueue where
  vec : List Message
deriving DecidableEq, Repr

/-- `MessageQueue::new`. -/
def MessageQueue.new : MessageQueue := ⟨[]⟩

/-- `MessageQueue::push`: if some stored element is the inverse of `msg`, remove
the first such element; otherwise insert `msg` at the binary-search index. -/
def MessageQueue.push (q : MessageQueue) (msg : Message) : MessageQueue :=
  match q.vec.findIdx? (fun t => msg.is_inverse_of t) with
  | some index => ⟨q.vec.eraseIdx index⟩
  | none => ⟨q.vec.insertIdx (bsearchIdx q.vec msg) msg⟩

/-- `MessageQueue::pop`: `Vec::pop`, i.e. remove and return the LAST element. -/
def MessageQueue.pop (q : MessageQueue) : Option Message × MessageQueue :=
  (q.vec.getLast?, ⟨q.vec.dropLast⟩)

/-- `MessageQueue::size`. -/
def MessageQueue.size (q : MessageQueue) : Nat := q.vec.length

/-- Repeated `pop` with no interleaved `push`, with enough fuel: the observation
sequence the C9 claim quantifies over. -/
def drainFuel : Nat → MessageQueue → List Message
  | 0, _ => []
  | n + 1, q =>
    match q.pop with
    | (none, _) => []
    | (some m, q1) => m :: drainFuel n q1

/-- A public operation on a `RollbackManager`, for quantifying over operation
sequences (claim C5). -/
inductive Op (σ : Type) where
  | save (m : Message)
  | takeCkpt
  | upd (s : σ) (t : Timestamp)
  | rb (t : Timestamp)
  | fr (t : Timestamp)

/-- Apply one public operation, discarding the returned value (failures leave
the manager unchanged, so the state transition is total). -/
def applyOp (rm : RollbackManager σ) : Op σ → RollbackManager σ
  | .save m => (rm.save_message m).2
  | .takeCkpt => rm.take_checkpoint
  | .upd s t => (rm.update s t).2
  | .rb t => (rm.rollback t).2
  | .fr t => rm.free t

/-- Run a sequence of public operations. -/
def runOps (rm : RollbackManager σ) (ops : List (Op σ)) : RollbackManager σ :=
  ops.foldl applyOp rm

/-- The checkpoint invariant maintained by every public operation: timestamps
strictly ascending, all at or below `lvt` (the latter is what lets
`take_checkpoint` stamp `lvt + 1` above every stored timestamp). -/
def CkptInv (rm : RollbackManager σ) : Prop :=
  rm.checkpoints.Pairwise (fun a b => a.timestamp < b.timestamp) ∧
    ∀ c ∈ rm.checkpoints, c.timestamp ≤ rm.lvt

end DCB

deriving instance DecidableEq for Except

namespace DCB

/-- The checkpoint-trimming loop is `dropWhile (timestamp > ts)` on the reversed
list: when that `dropWhile` retains something, the loop returns exactly it. -/
theorem ckptLoop_eq_some {σ : Type} (ts : Timestamp) (l : List (Checkpoint σ))
    {a : Checkpoint σ} {l' : List (Checkpoint σ)}
    (h : l.dropWhile (fun c => decide (ts < c.timestamp)) = a :: l') :
    ckptLoop ts l = some (a :: l') := by
  induction l with
  | nil => simp at h
  | cons c rest ih =>
    by_cases hc : ts < c.timestamp
    · rw [List.dropWhile_cons, if_pos (by simpa using hc)] at h
      simp [ckptLoop, hc, ih h]
    · rw [List.dropWhile_cons, if_neg (by simpa using hc)] at h
      cases h
      simp [ckptLoop, hc]

/-- `dropWhile` cannot consume a final element that fails the predicate. -/
theorem dropWhile_concat_ne_nil {α : Type} (p : α → Bool) (xs : List α) (a : α)
    (h : p a = false) : (xs ++ [a]).dropWhile p ≠ [] := by
  induction xs with
  | nil => simp [List.dropWhile_cons, h]
  | cons x xs ih =>
    by_cases hx : p x <;> simp [List.dropWhile_cons, hx, ih]

/-- The first element surviving `dropWhile` fails the predicate. -/
theorem head_dropWhile_false {α : Type} (p : α → Bool) :
    ∀ (l : List α) {a : α} {l' : List α}, l.dropWhile p = a :: l' → p a = false := by
  intro l
  induction l with
  | nil => intro a l' h; simp at h
  | cons x xs ih =>
    intro a l' h
    by_cases hx : p x
    · rw [List.dropWhile_cons, if_pos hx] at h; exact ih h
    · rw [List.dropWhile_cons, if_neg hx] at h
      cases h; simpa using hx

/-- Membership in the `HashSet` model: insertion only adds membership. -/
theorem mem_msgInsert (x m : Message) (s : List Message) :
    x ∈ msgInsert m s ↔ x = m ∨ x ∈ s := by
  by_cases hm : m ∈ s
  · simp only [msgInsert, if_pos hm]
    constructor
    · exact Or.inr
    · rintro (rfl | h)
      · exact hm
      · exact h
  · simp [msgInsert, hm, List.mem_cons]

/-- Membership after folding `msgInsert ∘ f` over a list. -/
theorem mem_foldl_msgInsert (f : Message → Message) (items : List Message)
    (acc : List Message) (x : Message) :
    x ∈ items.foldl (fun s y => msgInsert (f y) s) acc ↔
      x ∈ acc ∨ ∃ y ∈ items, x = f y := by
  induction items generalizing acc with
  | nil => simp
  | cons y ys ih =>
    rw [List.foldl_cons, ih, mem_msgInsert]
    constructor
    · rintro ((h | h) | ⟨z, hz, rfl⟩)
      · exact Or.inr ⟨y, List.mem_cons_self y ys, h⟩
      · exact Or.inl h
      · exact Or.inr ⟨z, List.mem_cons_of_mem y hz, rfl⟩
    · rintro (h | ⟨z, hz, rfl⟩)
      · exact Or.inl (Or.inr h)
      · rcases List.mem_cons.mp hz with rfl | hz
        · exact Or.inl (Or.inl rfl)
        · exact Or.inr ⟨z, hz, rfl⟩

/-- The received-message loop splits the reversed list at the first element with
`exec_ts < ts` and folds the popped prefix into the accumulator set. -/
theorem rcvLoop_eq (ts : Timestamp) (l acc : List Message) :
    rcvLoop ts l acc =
      (l.dropWhile fun x => decide (ts ≤ x.exec_ts),
        (l.takeWhile fun x => decide (ts ≤ x.exec_ts)).foldl
          (fun s y => msgInsert y s) acc) := by
  induction l generalizing acc with
  | nil => simp [rcvLoop]
  | cons x rest ih =>
    by_cases h : x.exec_ts < ts
    · have hp : ¬(ts ≤ x.exec_ts) := not_le.mpr h
      simp [rcvLoop, h, List.dropWhile_cons, List.takeWhile_cons, hp]
    · have hp : ts ≤ x.exec_ts := not_lt.mp h
      simp [rcvLoop, h, List.dropWhile_cons, List.takeWhile_cons, hp, ih]

/-- The sent-message loop splits the reversed list at the first element with
`sent_ts < ts`, folding the popped prefix, negated to anti, into the set. -/
theorem sentLoop_eq (ts : Timestamp) (l acc : List Message) :
    sentLoop ts l acc =
      (l.dropWhile fun x => decide (ts ≤ x.sent_ts),
        (l.takeWhile fun x => decide (ts ≤ x.sent_ts)).foldl
          (fun s y => msgInsert { y with is_anti := true } s) acc) := by
  induction l generalizing acc with
  | nil => simp [sentLoop]
  | cons x rest ih =>
    by_cases h : x.sent_ts < ts
    · have hp : ¬(ts ≤ x.sent_ts) := not_le.mpr h
      simp [sentLoop, h, List.dropWhile_cons, List.takeWhile_cons, hp]
    · have hp : ts ≤ x.sent_ts := not_lt.mp h
      simp [sentLoop, h, List.dropWhile_cons, List.takeWhile_cons, hp, ih]

/-- On a list sorted descending in `key`, dropping the prefix with `ts ≤ key`
leaves exactly the elements with `key < ts`. -/
theorem dropWhile_eq_filter_of_desc (key : Message → Nat) (ts : Nat) (l : List Message)
    (h : l.Pairwise fun a b => key b ≤ key a) :
    l.dropWhile (fun x => decide (ts ≤ key x)) = l.filter fun x => decide (key x < ts) := by
  induction l with
  | nil => rfl
  | cons x xs ih =>
    rcases List.pairwise_cons.mp h with ⟨hx, hxs⟩
    by_cases hts : ts ≤ key x
    · rw [List.dropWhile_cons, if_pos (by simpa using hts), List.filter_cons,
        if_neg (by simpa using not_lt.mpr hts)]
      exact ih hxs
    · rw [List.dropWhile_cons, if_neg (by simpa using hts), List.filter_cons,
        if_pos (by simpa using not_le.mp hts)]
      rw [List.filter_eq_self.mpr]
      intro a ha
      have := hx a ha
      simp only [decide_eq_true_eq]
      omega

/-- On a list sorted descending in `key`, the prefix with `ts ≤ key` is exactly
the set of elements with `ts ≤ key`. -/
theorem takeWhile_eq_filter_of_desc (key : Message → Nat) (ts : Nat) (l : List Message)
    (h : l.Pairwise fun a b => key b ≤ key a) :
    l.takeWhile (fun x => decide (ts ≤ key x)) = l.filter fun x => decide (ts ≤ key x) := by
  induction l with
  | nil => rfl
  | cons x xs ih =>
    rcases List.pairwise_cons.mp h with ⟨hx, hxs⟩
    by_cases hts : ts ≤ key x
    · rw [List.takeWhile_cons, if_pos (by simpa using hts), List.filter_cons,
        if_pos (by simpa using hts), ih hxs]
    · rw [List.takeWhile_cons, if_neg (by simpa using hts), List.filter_cons,
        if_neg (by simpa using hts)]
      rw [List.filter_eq_nil_iff.mpr]
      intro a ha
      have := hx a ha
      simp only [decide_eq_true_eq]
      omega

/-- C1 (amended): `take_checkpoint` increments `lvt` by one and appends the
checkpoint `{timestamp: the incremented lvt, state: clone(state)}` to the end of
`checkpoints`; `state`, `id` and the two message lists are untouched. -/
theorem claim_C1 {σ : Type} (rm : RollbackManager σ) :
    rm.take_checkpoint =
      { rm with
        lvt := rm.lvt + 1
        checkpoints := rm.checkpoints ++ [{ timestamp := rm.lvt + 1, state := rm.state }] } :=
  rfl

/-- C1 counterexample: on `new(1, 0)` (whose `lvt` is `0`), `take_checkpoint`
changes `lvt` to `1`, refuting "lvt is unchanged by take_checkpoint" (and with
it the claim that the appended checkpoint carries the pre-call `lvt`). -/
theorem claim_C1_counterexample :
    (RollbackManager.new 1 (0 : Nat)).take_checkpoint.lvt ≠
      (RollbackManager.new 1 (0 : Nat)).lvt := by
  decide

/-- C10: `get_received_messages` returns the `sent_messages` list — the same
list `get_sent_messages` returns — so the stored received messages are never
observable through `get_received_messages`. -/
theorem claim_C10 {σ : Type} (rm : RollbackManager σ) :
    rm.get_received_messages = rm.sent_messages ∧
      rm.get_received_messages = rm.get_sent_messages :=
  ⟨rfl, rfl⟩

/-- `save_message` error paths return before any mutation. -/
theorem save_message_error_eq {σ : Type} {rm : RollbackManager σ} {m : Message}
    {e : Failure} : (rm.save_message m).1 = .error e → (rm.save_message m).2 = rm := by
  unfold RollbackManager.save_message
  split
  · intro _; rfl
  · split
    · split
      · split
        · intro _; rfl
        · intro h; simp at h
      · intro h; simp at h
    · split
      · split
        · intro _; rfl
        · intro h; simp at h
      · intro h; simp at h

/-- `update` error paths return before any mutation. -/
theorem update_error_eq {σ : Type} {rm : RollbackManager σ} {s : σ} {t : Timestamp}
    {e : Failure} : (rm.update s t).1 = .error e → (rm.update s t).2 = rm := by
  unfold RollbackManager.update
  split
  · intro _; rfl
  · intro h; simp at h

/-- `rollback` error paths return before any mutation. -/
theorem rollback_error_eq {σ : Type} {rm : RollbackManager σ} {t : Timestamp}
    {e : Failure} : (rm.rollback t).1 = .error e → (rm.rollback t).2 = rm := by
  unfold RollbackManager.rollback
  split
  · intro _; rfl
  · split
    · intro _; rfl
    · split
      · intro _; rfl
      · split
        · intro _; rfl
        · intro _; rfl
        · intro h; simp at h

/-- C4: every call of `save_message`, `update` or `rollback` that returns a
`Failure` leaves the manager exactly unchanged. -/
theorem claim_C4 {σ : Type} (rm : RollbackManager σ) (m : Message) (s : σ)
    (t u : Timestamp) (e₁ e₂ e₃ : Failure) :
    ((rm.save_message m).1 = .error e₁ → (rm.save_message m).2 = rm) ∧
      ((rm.update s t).1 = .error e₂ → (rm.update s t).2 = rm) ∧
      ((rm.rollback u).1 = .error e₃ → (rm.rollback u).2 = rm) :=
  ⟨fun h => save_message_error_eq h, fun h => update_error_eq h,
    fun h => rollback_error_eq h⟩

/-- Inversion of a successful `rollback`: the exact shape of the result set and
of the updated manager in terms of the three loops. -/
theorem rollback_ok_inv {σ : Type} {rm : RollbackManager σ} {t : Timestamp}
    {res : List Message} {rm' : RollbackManager σ}
    (hok : rm.rollback t = (.ok res, rm')) :
    ∃ last restRev,
      ckptLoop t rm.checkpoints.reverse = some (last :: restRev) ∧
        res = (sentLoop t rm.sent_messages.reverse
            (rcvLoop t rm.received_messages.reverse []).2).2 ∧
        rm' =
          { rm with
            lvt := last.timestamp
            state := last.state
            checkpoints := (last :: restRev).reverse
            received_messages := (rcvLoop t rm.received_messages.reverse []).1.reverse
            sent_messages := (sentLoop t rm.sent_messages.reverse
                (rcvLoop t rm.received_messages.reverse []).2).1.reverse } := by
  unfold RollbackManager.rollback at hok
  split at hok
  · simp at hok
  · split at hok
    · simp at hok
    · split at hok
      · simp at hok
      · split at hok
        · simp at hok
        · simp at hok
        · rename_i last restRev heqc
          simp only [Prod.mk.injEq] at hok
          obtain ⟨h1, h2⟩ := hok
          injection h1 with h1
          exact ⟨last, restRev, heqc, h1.symm, h2.symm⟩

/-- Converse loop characterization: whatever the checkpoint loop retains is the
`dropWhile` of its input. -/
theorem ckptLoop_some_eq_dropWhile {σ : Type} {ts : Timestamp}
    {l r : List (Checkpoint σ)} (h : ckptLoop ts l = some r) :
    r = l.dropWhile fun c => decide (ts < c.timestamp) := by
  induction l with
  | nil => simp [ckptLoop] at h
  | cons c rest ih =>
    by_cases hc : ts < c.timestamp
    · rw [ckptLoop, if_pos hc] at h
      rw [List.dropWhile_cons, if_pos (by simpa using hc)]
      exact ih h
    · rw [ckptLoop, if_neg hc] at h
      rw [List.dropWhile_cons, if_neg (by simpa using hc)]
      exact (Option.some.inj h).symm

/-- `save_message` never touches `checkpoints` or `lvt`. -/
theorem save_message_ckpt_lvt {σ : Type} (rm : RollbackManager σ) (m : Message) :
    (rm.save_message m).2.checkpoints = rm.checkpoints ∧
      (rm.save_message m).2.lvt = rm.lvt := by
  unfold RollbackManager.save_message
  split
  · exact ⟨rfl, rfl⟩
  · split <;> split <;> (try split) <;> exact ⟨rfl, rfl⟩

/-- `update` never touches `checkpoints` and never lowers `lvt`. -/
theorem update_ckpt_lvt {σ : Type} (rm : RollbackManager σ) (s : σ) (t : Timestamp) :
    (rm.update s t).2.checkpoints = rm.checkpoints ∧ rm.lvt ≤ (rm.update s t).2.lvt := by
  unfold RollbackManager.update
  split
  · exact ⟨rfl, le_refl _⟩
  · next h => exact ⟨rfl, not_lt.mp h⟩

/-- Every public operation preserves the checkpoint invariant. -/
theorem ckptInv_applyOp {σ : Type} (rm : RollbackManager σ) (op : Op σ)
    (h : CkptInv rm) : CkptInv (applyOp rm op) := by
  obtain ⟨hpw, hle⟩ := h
  cases op with
  | save m =>
    obtain ⟨hc, hl⟩ := save_message_ckpt_lvt rm m
    show CkptInv (rm.save_message m).2
    rw [CkptInv, hc, hl]
    exact ⟨hpw, hle⟩
  | takeCkpt =>
    show CkptInv rm.take_checkpoint
    unfold RollbackManager.take_checkpoint CkptInv
    constructor
    · rw [List.pairwise_append]
      refine ⟨hpw, List.pairwise_singleton _ _, ?_⟩
      intro a ha b hb
      rw [List.mem_singleton.mp hb]
      exact Nat.lt_succ_of_le (hle a ha)
    · intro c hc
      rcases List.mem_append.mp hc with hc | hc
      · exact Nat.le_succ_of_le (hle c hc)
      · rw [List.mem_singleton.mp hc]
  | upd s t =>
    obtain ⟨hc, hl⟩ := update_ckpt_lvt rm s t
    show CkptInv (rm.update s t).2
    refine ⟨by rw [hc]; exact hpw, ?_⟩
    intro c hcm
    rw [hc] at hcm
    exact le_trans (hle c hcm) hl
  | fr t =>
    show CkptInv (rm.free t)
    unfold RollbackManager.free
    constructor
    · exact hpw.sublist (List.dropWhile_sublist _)
    · intro c hc
      exact hle c ((List.dropWhile_sublist _).subset hc)
  | rb t =>
    show CkptInv (rm.rollback t).2
    rcases hq : rm.rollback t with ⟨r, rm2⟩
    cases r with
    | error e =>
      have h1 : (rm.rollback t).1 = .error e := by rw [hq]
      have h2 : rm2 = rm := (congrArg Prod.snd hq).symm.trans (rollback_error_eq h1)
      show CkptInv rm2
      rw [h2]
      exact ⟨hpw, hle⟩
    | ok res =>
      obtain ⟨last, restRev, hck, _, hrm2⟩ := rollback_ok_inv hq
      have hdrop : last :: restRev =
          rm.checkpoints.reverse.dropWhile fun c => decide (t < c.timestamp) :=
        ckptLoop_some_eq_dropWhile hck
      have hsub : List.Sublist (last :: restRev) rm.checkpoints.reverse := by
        rw [hdrop]; exact List.dropWhile_sublist _
      have hdesc : (last :: restRev).Pairwise fun a b => b.timestamp < a.timestamp :=
        (List.pairwise_reverse.mpr hpw).sublist hsub
      have hlastmax : ∀ c ∈ last :: restRev, c.timestamp ≤ last.timestamp := by
        intro c hc
        rcases List.mem_cons.mp hc with rfl | hc
        · exact le_refl _
        · exact le_of_lt ((List.pairwise_cons.mp hdesc).1 c hc)
      show CkptInv rm2
      rw [hrm2]
      constructor
      · exact List.pairwise_reverse.mpr hdesc
      · intro c hc
        exact hlastmax c (List.mem_reverse.mp hc)

/-- The checkpoint invariant holds for a fresh manager. -/
theorem ckptInv_new {σ : Type} (id : ComponentId) (s : σ) :
    CkptInv (RollbackManager.new id s) :=
  ⟨List.pairwise_singleton _ _, by
    intro c hc
    rw [List.mem_singleton.mp hc]
    exact Nat.le_refl 0⟩

/-- The checkpoint invariant is preserved along any operation sequence. -/
theorem ckptInv_runOps {σ : Type} (ops : List (Op σ)) (rm : RollbackManager σ)
    (h : CkptInv rm) : CkptInv (runOps rm ops) := by
  induction ops generalizing rm with
  | nil => exact h
  | cons op ops ih => exact ih _ (ckptInv_applyOp rm op h)

/-- C5 (amended): starting from `new(id, initial_state)`, after any sequence of
public operations the `checkpoints` list remains strictly ascending by
timestamp. (Non-emptiness is NOT preserved: `free` is unconditional and can
drop every checkpoint.) -/
theorem claim_C5 {σ : Type} (id : ComponentId) (s : σ) (ops : List (Op σ)) :
    (runOps (RollbackManager.new id s) ops).checkpoints.Pairwise
      fun a b => a.timestamp < b.timestamp :=
  (ckptInv_runOps ops _ (ckptInv_new id s)).1

/-- C5 counterexample: the single-operation sequence `free(0)` empties the
checkpoint list of a fresh manager, refuting non-emptiness. -/
theorem claim_C5_counterexample :
    (runOps (RollbackManager.new 1 (0 : Nat)) [Op.fr 0]).checkpoints = [] := by
  decide

/-- C3: `rollback(t)` fails `TimeViolation` when `t > lvt`; fails
`InsufficientCheckpoints` when `checkpoints` is empty or its first checkpoint's
timestamp exceeds `t`; and for `t ≤ lvt` with the first checkpoint at-or-before
`t` it succeeds, drops exactly the maximal trailing run of checkpoints with
`timestamp > t`, and sets `lvt` and `state` to the timestamp and state of the
last retained checkpoint, so that afterwards `lvt ≤ t`. -/
theorem claim_C3 {σ : Type} (rm : RollbackManager σ) (t : Timestamp) :
    (rm.lvt < t → rm.rollback t = (.error .timeViolation, rm)) ∧
      (t ≤ rm.lvt → rm.checkpoints = [] →
        rm.rollback t = (.error .insufficientCheckpoints, rm)) ∧
      (t ≤ rm.lvt → ∀ c, rm.checkpoints.head? = some c → t < c.timestamp →
        rm.rollback t = (.error .insufficientCheckpoints, rm)) ∧
      (t ≤ rm.lvt → ∀ c, rm.checkpoints.head? = some c → c.timestamp ≤ t →
        ∃ res last,
          (rm.rollback t).1 = .ok res ∧
            (rm.checkpoints.reverse.dropWhile fun k => decide (t < k.timestamp)).head? =
              some last ∧
            (rm.rollback t).2.checkpoints =
              (rm.checkpoints.reverse.dropWhile fun k => decide (t < k.timestamp)).reverse ∧
            (rm.rollback t).2.lvt = last.timestamp ∧
            (rm.rollback t).2.state = last.state ∧
            (rm.rollback t).2.lvt ≤ t) := by
  refine ⟨?_, ?_, ?_, ?_⟩
  · intro ht
    unfold RollbackManager.rollback
    rw [if_pos ht]
  · intro ht hnil
    unfold RollbackManager.rollback
    rw [if_neg (not_lt.mpr ht)]
    simp only [hnil, List.head?_nil]
  · intro ht c hc hct
    unfold RollbackManager.rollback
    rw [if_neg (not_lt.mpr ht)]
    simp only [hc, if_pos hct]
  · intro ht c hc hct
    obtain ⟨tl, hcks⟩ : ∃ tl, rm.checkpoints = c :: tl := by
      cases hq : rm.checkpoints with
      | nil => rw [hq] at hc; simp at hc
      | cons a l => rw [hq] at hc; simp at hc; exact ⟨l, by rw [hc]⟩
    have hrev : rm.checkpoints.reverse = tl.reverse ++ [c] := by
      rw [hcks, List.reverse_cons]
    have hne : (rm.checkpoints.reverse.dropWhile fun k => decide (t < k.timestamp)) ≠ [] := by
      rw [hrev]
      exact dropWhile_concat_ne_nil _ _ _ (by simpa using not_lt.mpr hct)
    obtain ⟨last, restRev, hd⟩ := List.exists_cons_of_ne_nil hne
    have hlast_le : last.timestamp ≤ t := by
      have := head_dropWhile_false _ _ hd
      simpa using this
    rcases hr : rcvLoop t rm.received_messages.reverse [] with ⟨rcvRev, acc1⟩
    rcases hs : sentLoop t rm.sent_messages.reverse acc1 with ⟨sentRev, acc2⟩
    have hroll :
        rm.rollback t =
          (.ok acc2,
            { rm with
              lvt := last.timestamp
              state := last.state
              checkpoints := (last :: restRev).reverse
              received_messages := rcvRev.reverse
              sent_messages := sentRev.reverse }) := by
      unfold RollbackManager.rollback
      rw [if_neg (not_lt.mpr ht)]
      simp only [hc, if_neg (not_lt.mpr hct), ckptLoop_eq_some t _ hd, hr, hs]
    refine ⟨acc2, last, ?_, ?_, ?_, ?_, ?_, ?_⟩ <;>
      simp [hroll, hd, hlast_le]

/-- C3 witness: on the fresh manager (`lvt = 0`, genesis checkpoint at 0),
`rollback 0` succeeds with the genesis checkpoint retained. -/
theorem claim_C3_witness :
    0 ≤ (RollbackManager.new 1 (0 : Nat)).lvt ∧
      (RollbackManager.new 1 (0 : Nat)).checkpoints.head? = some ⟨0, 0⟩ ∧
      (0 : Timestamp) ≤ 0 ∧
      ∃ res last,
        ((RollbackManager.new 1 (0 : Nat)).rollback 0).1 = .ok res ∧
          ((RollbackManager.new 1 (0 : Nat)).checkpoints.reverse.dropWhile fun k =>
                decide (0 < k.timestamp)).head? =
            some last ∧
          ((RollbackManager.new 1 (0 : Nat)).rollback 0).2.checkpoints =
            ((RollbackManager.new 1 (0 : Nat)).checkpoints.reverse.dropWhile fun k =>
                decide (0 < k.timestamp)).reverse ∧
          ((RollbackManager.new 1 (0 : Nat)).rollback 0).2.lvt = last.timestamp ∧
          ((RollbackManager.new 1 (0 : Nat)).rollback 0).2.state = last.state ∧
          ((RollbackManager.new 1 (0 : Nat)).rollback 0).2.lvt ≤ 0 :=
  ⟨by decide, by decide, by decide,
    (claim_C3 (RollbackManager.new 1 (0 : Nat)) 0).2.2.2 (by decide) ⟨0, 0⟩ (by decide)
      (by decide)⟩

/-- Membership after folding plain `msgInsert` over a list. -/
theorem mem_foldl_msgInsert_plain (items acc : List Message) (x : Message) :
    x ∈ items.foldl (fun s y => msgInsert y s) acc ↔ x ∈ acc ∨ x ∈ items := by
  induction items generalizing acc with
  | nil => simp
  | cons y ys ih =>
    rw [List.foldl_cons, ih, mem_msgInsert]
    constructor
    · rintro ((rfl | h) | h)
      · exact Or.inr (List.mem_cons_self x ys)
      · exact Or.inl h
      · exact Or.inr (List.mem_cons_of_mem y h)
    · rintro (h | h)
      · exact Or.inl (Or.inr h)
      · rcases List.mem_cons.mp h with rfl | h
        · exact Or.inl (Or.inl rfl)
        · exact Or.inr h

/-- C2: with the lists in their documented sorted order, a successful
`rollback(t)` partitions `received_messages` at `exec_ts < t` — the messages
with `exec_ts < t` stay stored, those with `exec_ts ≥ t` are returned
unchanged — and partitions `sent_messages` at `sent_ts < t`, each retracted
sent message contributing its anti twin to the returned set. -/
theorem claim_C2 {σ : Type} (rm : RollbackManager σ) (t : Timestamp)
    (res : List Message) (rm' : RollbackManager σ)
    (hrcv : rm.received_messages.Pairwise fun a b => a.exec_ts ≤ b.exec_ts)
    (hsent : rm.sent_messages.Pairwise fun a b => a.sent_ts ≤ b.sent_ts)
    (hok : rm.rollback t = (.ok res, rm')) :
    rm'.received_messages = rm.received_messages.filter (fun x => decide (x.exec_ts < t)) ∧
      rm'.sent_messages = rm.sent_messages.filter (fun x => decide (x.sent_ts < t)) ∧
      ∀ x, x ∈ res ↔
        ((x ∈ rm.received_messages ∧ t ≤ x.exec_ts) ∨
          ∃ y, y ∈ rm.sent_messages ∧ t ≤ y.sent_ts ∧ x = { y with is_anti := true }) := by
  have hrevDesc : rm.received_messages.reverse.Pairwise fun a b => b.exec_ts ≤ a.exec_ts :=
    List.pairwise_reverse.mpr hrcv
  have hsentDesc : rm.sent_messages.reverse.Pairwise fun a b => b.sent_ts ≤ a.sent_ts :=
    List.pairwise_reverse.mpr hsent
  obtain ⟨last, restRev, _, hres, hrm'⟩ := rollback_ok_inv hok
  rw [rcvLoop_eq, sentLoop_eq] at hres hrm'
  refine ⟨?_, ?_, ?_⟩
  · rw [hrm']
    show (rm.received_messages.reverse.dropWhile fun x => decide (t ≤ x.exec_ts)).reverse = _
    rw [dropWhile_eq_filter_of_desc (fun m => m.exec_ts) t _ hrevDesc, List.filter_reverse,
      List.reverse_reverse]
  · rw [hrm']
    show (rm.sent_messages.reverse.dropWhile fun x => decide (t ≤ x.sent_ts)).reverse = _
    rw [dropWhile_eq_filter_of_desc (fun m => m.sent_ts) t _ hsentDesc, List.filter_reverse,
      List.reverse_reverse]
  · intro x
    rw [hres]
    show x ∈ (rm.sent_messages.reverse.takeWhile fun y => decide (t ≤ y.sent_ts)).foldl
        (fun s y => msgInsert { y with is_anti := true } s)
        ((rm.received_messages.reverse.takeWhile fun y => decide (t ≤ y.exec_ts)).foldl
          (fun s y => msgInsert y s) []) ↔ _
    rw [mem_foldl_msgInsert, mem_foldl_msgInsert_plain,
      takeWhile_eq_filter_of_desc (fun m => m.exec_ts) t _ hrevDesc,
      takeWhile_eq_filter_of_desc (fun m => m.sent_ts) t _ hsentDesc]
    simp only [List.not_mem_nil, false_or, List.mem_filter, List.mem_reverse,
      decide_eq_true_eq]
    constructor
    · rintro (h | ⟨y, ⟨hy, hyt⟩, rfl⟩)
      · exact Or.inl h
      · exact Or.inr ⟨y, hy, hyt, rfl⟩
    · rintro (h | ⟨y, hy, hyt, rfl⟩)
      · exact Or.inl h
      · exact Or.inr ⟨y, ⟨hy, hyt⟩, rfl⟩

/-- C2 witness: a manager holding received messages at `exec_ts` 10 and 20 and
sent messages at `sent_ts` 10 and 20 rolled back to 16 keeps the 10s and
returns the 20s — the received one unchanged, the sent one negated to anti. -/
theorem claim_C2_witness :
    (⟨5, 30, 1, [⟨0, 0⟩, ⟨15, 3⟩],
          [⟨1, 10, 2, 1, "", "", 1, false⟩, ⟨1, 20, 2, 1, "", "", 1, false⟩],
          [⟨10, 99, 1, 2, "", "", 2, false⟩, ⟨20, 99, 1, 2, "", "", 2, false⟩]⟩ :
        RollbackManager Nat).rollback 16 =
      (.ok [⟨20, 99, 1, 2, "", "", 2, true⟩, ⟨1, 20, 2, 1, "", "", 1, false⟩],
        ⟨3, 15, 1, [⟨0, 0⟩, ⟨15, 3⟩], [⟨1, 10, 2, 1, "", "", 1, false⟩],
          [⟨10, 99, 1, 2, "", "", 2, false⟩]⟩) ∧
      ((⟨3, 15, 1, [⟨0, 0⟩, ⟨15, 3⟩], [⟨1, 10, 2, 1, "", "", 1, false⟩],
            [⟨10, 99, 1, 2, "", "", 2, false⟩]⟩ :
            RollbackManager Nat).received_messages =
          (⟨5, 30, 1, [⟨0, 0⟩, ⟨15, 3⟩],
                [⟨1, 10, 2, 1, "", "", 1, false⟩, ⟨1, 20, 2, 1, "", "", 1, false⟩],
                [⟨10, 99, 1, 2, "", "", 2, false⟩, ⟨20, 99, 1, 2, "", "", 2, false⟩]⟩ :
              RollbackManager Nat).received_messages.filter
            (fun x => decide (x.exec_ts < 16)) ∧
        (⟨3, 15, 1, [⟨0, 0⟩, ⟨15, 3⟩], [⟨1, 10, 2, 1, "", "", 1, false⟩],
              [⟨10, 99, 1, 2, "", "", 2, false⟩]⟩ :
              RollbackManager Nat).sent_messages =
          (⟨5, 30, 1, [⟨0, 0⟩, ⟨15, 3⟩],
                [⟨1, 10, 2, 1, "", "", 1, false⟩, ⟨1, 20, 2, 1, "", "", 1, false⟩],
                [⟨10, 99, 1, 2, "", "", 2, false⟩, ⟨20, 99, 1, 2, "", "", 2, false⟩]⟩ :
              RollbackManager Nat).sent_messages.filter
            (fun x => decide (x.sent_ts < 16)) ∧
        ∀ x,
          x ∈ [⟨20, 99, 1, 2, "", "", 2, true⟩, ⟨1, 20, 2, 1, "", "", 1, false⟩] ↔
            ((x ∈ (⟨5, 30, 1, [⟨0, 0⟩, ⟨15, 3⟩],
                      [⟨1, 10, 2, 1, "", "", 1, false⟩, ⟨1, 20, 2, 1, "", "", 1, false⟩],
                      [⟨10, 99, 1, 2, "", "", 2, false⟩, ⟨20, 99, 1, 2, "", "", 2, false⟩]⟩ :
                    RollbackManager Nat).received_messages ∧
                16 ≤ x.exec_ts) ∨
              ∃ y, y ∈ (⟨5, 30, 1, [⟨0, 0⟩, ⟨15, 3⟩],
                      [⟨1, 10, 2, 1, "", "", 1, false⟩, ⟨1, 20, 2, 1, "", "", 1, false⟩],
                      [⟨10, 99, 1, 2, "", "", 2, false⟩, ⟨20, 99, 1, 2, "", "", 2, false⟩]⟩ :
                    RollbackManager Nat).sent_messages ∧
                16 ≤ y.sent_ts ∧ x = { y with is_anti := true })) :=
  ⟨by decide,
    claim_C2
      (⟨5, 30, 1, [⟨0, 0⟩, ⟨15, 3⟩],
        [⟨1, 10, 2, 1, "", "", 1, false⟩, ⟨1, 20, 2, 1, "", "", 1, false⟩],
        [⟨10, 99, 1, 2, "", "", 2, false⟩, ⟨20, 99, 1, 2, "", "", 2, false⟩]⟩ :
        RollbackManager Nat)
      16 [⟨20, 99, 1, 2, "", "", 2, true⟩, ⟨1, 20, 2, 1, "", "", 1, false⟩]
      (⟨3, 15, 1, [⟨0, 0⟩, ⟨15, 3⟩], [⟨1, 10, 2, 1, "", "", 1, false⟩],
        [⟨10, 99, 1, 2, "", "", 2, false⟩]⟩ : RollbackManager Nat)
      (by decide) (by decide) (by decide)⟩

/-- C7 (amended): in a successful rollback every retracted sent message is
returned as a twin identical in every field — id, from, to, sent_ts, exec_ts,
and also payload and path — except `is_anti = true`; the payload of the
original message is carried over, not emptied. Stored received messages are
assumed positive and `sent_messages` sorted, per the documented invariants. -/
theorem claim_C7 {σ : Type} (rm : RollbackManager σ) (t : Timestamp)
    (res : List Message) (rm' : RollbackManager σ)
    (hsent : rm.sent_messages.Pairwise fun a b => a.sent_ts ≤ b.sent_ts)
    (hrcvPos : ∀ m ∈ rm.received_messages, m.is_anti = false)
    (hok : rm.rollback t = (.ok res, rm')) :
    (∀ y ∈ rm.sent_messages, t ≤ y.sent_ts → { y with is_anti := true } ∈ res) ∧
      ∀ x ∈ res, x.is_anti = true →
        ∃ y, y ∈ rm.sent_messages ∧ t ≤ y.sent_ts ∧
          x.id = y.id ∧ x.«from» = y.«from» ∧ x.«to» = y.«to» ∧
          x.sent_ts = y.sent_ts ∧ x.exec_ts = y.exec_ts ∧
          x.payload = y.payload ∧ x.path = y.path := by
  have hsentDesc : rm.sent_messages.reverse.Pairwise fun a b => b.sent_ts ≤ a.sent_ts :=
    List.pairwise_reverse.mpr hsent
  obtain ⟨last, restRev, _, hres, _⟩ := rollback_ok_inv hok
  rw [rcvLoop_eq, sentLoop_eq] at hres
  have hmem : ∀ x, x ∈ res ↔
      x ∈ (rm.received_messages.reverse.takeWhile fun y => decide (t ≤ y.exec_ts)) ∨
        ∃ y ∈ (rm.sent_messages.reverse.takeWhile fun y => decide (t ≤ y.sent_ts)),
          x = { y with is_anti := true } := by
    intro x
    rw [hres]
    show x ∈ (rm.sent_messages.reverse.takeWhile fun y => decide (t ≤ y.sent_ts)).foldl
        (fun s y => msgInsert { y with is_anti := true } s)
        ((rm.received_messages.reverse.takeWhile fun y => decide (t ≤ y.exec_ts)).foldl
          (fun s y => msgInsert y s) []) ↔ _
    rw [mem_foldl_msgInsert, mem_foldl_msgInsert_plain]
    simp only [List.not_mem_nil, false_or]
  constructor
  · intro y hy hyt
    refine (hmem _).mpr (Or.inr ⟨y, ?_, rfl⟩)
    rw [takeWhile_eq_filter_of_desc (fun m => m.sent_ts) t _ hsentDesc]
    simp only [List.mem_filter, List.mem_reverse, decide_eq_true_eq]
    exact ⟨hy, hyt⟩
  · intro x hx hanti
    rcases (hmem x).mp hx with h | ⟨y, hy, rfl⟩
    · have hxr : x ∈ rm.received_messages :=
        List.mem_reverse.mp ((List.takeWhile_sublist _).subset h)
      rw [hrcvPos x hxr] at hanti
      cases hanti
    · have hys : y ∈ rm.sent_messages :=
        List.mem_reverse.mp ((List.takeWhile_sublist _).subset hy)
      have hyt : t ≤ y.sent_ts := by
        have := List.mem_takeWhile_imp hy
        simpa using this
      exact ⟨y, hys, hyt, rfl, rfl, rfl, rfl, rfl, rfl, rfl⟩

/-- C7 counterexample: rolling back a manager whose sole sent message carries
payload "x" returns the anti twin still carrying payload "x", refuting "with
an empty payload". -/
theorem claim_C7_counterexample :
    ((⟨0, 0, 1, [⟨0, 0⟩], [], [⟨0, 5, 1, 2, "x", "", 9, false⟩]⟩ :
          RollbackManager Nat).rollback 0).1 =
        .ok [⟨0, 5, 1, 2, "x", "", 9, true⟩] ∧
      (⟨0, 5, 1, 2, "x", "", 9, true⟩ : Message).is_anti = true ∧
      (⟨0, 5, 1, 2, "x", "", 9, true⟩ : Message).payload ≠ "" := by
  refine ⟨by decide, rfl, by decide⟩

/-- C7 witness: in that same rollback, the anti twin of the retracted sent
message (payload included) is in the returned set. -/
theorem claim_C7_witness :
    ({ (⟨0, 5, 1, 2, "x", "", 9, false⟩ : Message) with is_anti := true } ∈
      [(⟨0, 5, 1, 2, "x", "", 9, true⟩ : Message)]) :=
  (claim_C7 (⟨0, 0, 1, [⟨0, 0⟩], [], [⟨0, 5, 1, 2, "x", "", 9, false⟩]⟩ :
        RollbackManager Nat) 0 [⟨0, 5, 1, 2, "x", "", 9, true⟩]
      (⟨0, 0, 1, [⟨0, 0⟩], [], []⟩ : RollbackManager Nat)
      (by decide) (by decide) (by decide)).1
    ⟨0, 5, 1, 2, "x", "", 9, false⟩ (by decide) (by decide)

/-- Draining a queue by repeated `pop` reads the vector back-to-front. -/
theorem drainFuel_eq (n : Nat) (q : MessageQueue) :
    drainFuel n q = q.vec.reverse.take n := by
  induction n generalizing q with
  | zero => simp [drainFuel]
  | succ n ih =>
    rcases List.eq_nil_or_concat q.vec with hv | ⟨l, a, hv⟩
    · simp [drainFuel, MessageQueue.pop, hv]
    · rw [List.concat_eq_append] at hv
      show (match (q.vec.getLast?, (⟨q.vec.dropLast⟩ : MessageQueue)) with
        | (none, _) => []
        | (some m, q1) => m :: drainFuel n q1) = q.vec.reverse.take (n + 1)
      rw [hv, List.getLast?_concat, List.dropLast_concat]
      simp only [List.reverse_append, List.reverse_cons, List.reverse_nil, List.nil_append,
        List.singleton_append, List.take_succ_cons]
      rw [ih]

/-- C9: for a non-empty queue in its sorted order (descending `exec_ts`, as
`push` maintains), `pop` removes and returns the last element, which has the
minimal `exec_ts` among all stored messages; the remainder keeps the order,
and any sequence of pops with no interleaved pushes is non-decreasing in
`exec_ts`. -/
theorem claim_C9 (q : MessageQueue)
    (hs : q.vec.Pairwise fun a b => b.exec_ts ≤ a.exec_ts) (hne : q.vec ≠ []) :
    ∃ m, q.pop = (some m, ⟨q.vec.dropLast⟩) ∧ m ∈ q.vec ∧
      (∀ x ∈ q.vec, m.exec_ts ≤ x.exec_ts) ∧ q.vec = q.vec.dropLast ++ [m] ∧
      q.vec.dropLast.Pairwise (fun a b => b.exec_ts ≤ a.exec_ts) ∧
      ∀ n, (drainFuel n q).Chain' fun a b => a.exec_ts ≤ b.exec_ts := by
  have hpop : q.pop = (some (q.vec.getLast hne), ⟨q.vec.dropLast⟩) := by
    unfold MessageQueue.pop
    rw [List.getLast?_eq_getLast_of_ne_nil hne]
  refine ⟨q.vec.getLast hne, hpop, List.getLast_mem hne, ?_, ?_, ?_, ?_⟩
  · intro x hx
    have hsplit := List.dropLast_append_getLast hne
    rw [← hsplit] at hx hs
    rcases List.mem_append.mp hx with hx | hx
    · exact ((List.pairwise_append.mp hs).2.2 x hx _ (List.mem_singleton_self _))
    · rw [List.mem_singleton.mp hx]
  · exact (List.dropLast_append_getLast hne).symm
  · have hsplit := List.dropLast_append_getLast hne
    rw [← hsplit] at hs
    exact (List.pairwise_append.mp hs).1
  · intro n
    rw [drainFuel_eq]
    refine List.Pairwise.chain' ?_
    refine ((List.pairwise_reverse.mpr hs).sublist (List.take_sublist n _)).imp ?_
    intro a b h
    exact h

/-- C9 witness: popping the two-element queue `[exec_ts 20, exec_ts 10]`. -/
theorem claim_C9_witness :
    ∃ m, (⟨[⟨1, 20, 1, 2, "", "", 3, false⟩, ⟨1, 10, 1, 2, "", "", 4, false⟩]⟩ :
          MessageQueue).pop =
        (some m, ⟨[⟨1, 20, 1, 2, "", "", 3, false⟩]⟩) ∧
      m ∈ [(⟨1, 20, 1, 2, "", "", 3, false⟩ : Message), ⟨1, 10, 1, 2, "", "", 4, false⟩] ∧
      (∀ x ∈ [(⟨1, 20, 1, 2, "", "", 3, false⟩ : Message), ⟨1, 10, 1, 2, "", "", 4, false⟩],
        m.exec_ts ≤ x.exec_ts) ∧
      [(⟨1, 20, 1, 2, "", "", 3, false⟩ : Message), ⟨1, 10, 1, 2, "", "", 4, false⟩] =
        [(⟨1, 20, 1, 2, "", "", 3, false⟩ : Message)] ++ [m] ∧
      ([(⟨1, 20, 1, 2, "", "", 3, false⟩ : Message)] : List Message).Pairwise
        (fun a b => b.exec_ts ≤ a.exec_ts) ∧
      ∀ n, (drainFuel n
          (⟨[⟨1, 20, 1, 2, "", "", 3, false⟩, ⟨1, 10, 1, 2, "", "", 4, false⟩]⟩ :
            MessageQueue)).Chain' fun a b => a.exec_ts ≤ b.exec_ts :=
  claim_C9
    (⟨[⟨1, 20, 1, 2, "", "", 3, false⟩, ⟨1, 10, 1, 2, "", "", 4, false⟩]⟩ : MessageQueue)
    (by decide) (by decide)

/-- The binary-search loop never leaves its window: with `left ≤ right` the
returned index is at most `right`. -/
theorem bsearchGo_le (v : List Message) (msg : Message) :
    ∀ (fuel left right : Nat), left ≤ right → bsearchGo v msg fuel left right ≤ right := by
  intro fuel
  induction fuel with
  | zero => intro left right h; exact h
  | succ fuel ih =>
    intro left right h
    unfold bsearchGo
    split
    case isTrue hlt =>
      split
      · exact ih _ _ (by omega)
      · exact le_trans (ih _ _ (by omega)) (by omega)
      · omega
    case isFalse => exact h

/-- The insertion index computed by `push` is a valid position. -/
theorem bsearchIdx_le_length (v : List Message) (msg : Message) :
    bsearchIdx v msg ≤ v.length :=
  bsearchGo_le v msg v.length 0 v.length (Nat.zero_le _)

/-- Unfolding `is_inverse_of` into its propositional content. -/
theorem is_inverse_of_iff (a b : Message) :
    a.is_inverse_of b = true ↔
      a.sent_ts = b.sent_ts ∧ a.exec_ts = b.exec_ts ∧ a.«from» = b.«from» ∧
        a.«to» = b.«to» ∧ a.id = b.id ∧ a.is_anti ≠ b.is_anti := by
  simp [Message.is_inverse_of, Bool.and_eq_true, beq_iff_eq, bne_iff_ne, and_assoc]

/-- Finding the first match in a list where only the freshly inserted element
matches locates exactly the insertion position. -/
theorem findIdx?_insertIdx {α : Type} (P : α → Bool) (m : α) :
    ∀ (i : Nat) (l : List α), i ≤ l.length → (∀ x ∈ l, P x = false) → P m = true →
      (l.insertIdx i m).findIdx? P = some i := by
  intro i
  induction i with
  | zero =>
    intro l _ _ hPm
    rw [List.insertIdx_zero, List.findIdx?_cons, if_pos hPm]
  | succ i ih =>
    intro l hlen hall hPm
    cases l with
    | nil => simp at hlen
    | cons x xs =>
      rw [List.insertIdx_succ_cons, List.findIdx?_cons,
        if_neg (by simp [hall x (List.mem_cons_self x xs)]), List.findIdx?_succ,
        ih xs (Nat.le_of_succ_le_succ hlen)
          (fun y hy => hall y (List.mem_cons_of_mem x hy)) hPm]
      rfl

/-- C8 (amended): for a positive message `m` such that NO stored message shares
its identity `(sent_ts, exec_ts, from, to, id)` — a stronger premise than the
claim's "its inverse is not in the queue" — pushing `m` and then its
anti-message restores the queue's contents exactly, and pushing in the opposite
order yields the same result. -/
theorem claim_C8 (q : MessageQueue) (m : Message) (hpos : m.is_anti = false)
    (hid : ∀ x ∈ q.vec,
      ¬(m.sent_ts = x.sent_ts ∧ m.exec_ts = x.exec_ts ∧ m.«from» = x.«from» ∧
        m.«to» = x.«to» ∧ m.id = x.id)) :
    ((q.push m).push { m with is_anti := true }).vec = q.vec ∧
      ((q.push { m with is_anti := true }).push m).vec = q.vec := by
  have hnone1 : q.vec.findIdx? (fun t => m.is_inverse_of t) = none := by
    refine List.findIdx?_eq_none_iff.mpr fun x hx => ?_
    refine Bool.eq_false_iff.mpr fun hc => ?_
    obtain ⟨h1, h2, h3, h4, h5, _⟩ := (is_inverse_of_iff m x).mp hc
    exact hid x hx ⟨h1, h2, h3, h4, h5⟩
  have hnone2 : q.vec.findIdx? (fun t => ({ m with is_anti := true }).is_inverse_of t)
      = none := by
    refine List.findIdx?_eq_none_iff.mpr fun x hx => ?_
    refine Bool.eq_false_iff.mpr fun hc => ?_
    obtain ⟨h1, h2, h3, h4, h5, _⟩ := (is_inverse_of_iff _ x).mp hc
    exact hid x hx ⟨h1, h2, h3, h4, h5⟩
  have hall2 : ∀ x ∈ q.vec,
      (fun t => ({ m with is_anti := true }).is_inverse_of t) x = false := by
    intro x hx
    refine Bool.eq_false_iff.mpr fun hc => ?_
    obtain ⟨h1, h2, h3, h4, h5, _⟩ := (is_inverse_of_iff _ x).mp hc
    exact hid x hx ⟨h1, h2, h3, h4, h5⟩
  have hall1 : ∀ x ∈ q.vec, (fun t => m.is_inverse_of t) x = false := by
    intro x hx
    refine Bool.eq_false_iff.mpr fun hc => ?_
    obtain ⟨h1, h2, h3, h4, h5, _⟩ := (is_inverse_of_iff m x).mp hc
    exact hid x hx ⟨h1, h2, h3, h4, h5⟩
  have hPanti : (fun t => ({ m with is_anti := true }).is_inverse_of t) m = true := by
    refine (is_inverse_of_iff _ m).mpr ⟨rfl, rfl, rfl, rfl, rfl, ?_⟩
    rw [hpos]
    exact fun hc => Bool.noConfusion hc
  have hPm : (fun t => m.is_inverse_of t) { m with is_anti := true } = true := by
    refine (is_inverse_of_iff m _).mpr ⟨rfl, rfl, rfl, rfl, rfl, ?_⟩
    rw [hpos]
    exact fun hc => Bool.noConfusion hc
  constructor
  · have hstep1 : q.push m = ⟨q.vec.insertIdx (bsearchIdx q.vec m) m⟩ := by
      unfold MessageQueue.push
      rw [hnone1]
    rw [hstep1]
    have hfind : ((q.vec.insertIdx (bsearchIdx q.vec m) m).findIdx?
        fun t => ({ m with is_anti := true }).is_inverse_of t) =
          some (bsearchIdx q.vec m) :=
      findIdx?_insertIdx _ m (bsearchIdx q.vec m) q.vec (bsearchIdx_le_length q.vec m)
        hall2 hPanti
    show (MessageQueue.push ⟨q.vec.insertIdx (bsearchIdx q.vec m) m⟩
      { m with is_anti := true }).vec = q.vec
    unfold MessageQueue.push
    rw [hfind]
    show (q.vec.insertIdx (bsearchIdx q.vec m) m).eraseIdx (bsearchIdx q.vec m) = q.vec
    exact List.eraseIdx_insertIdx _ _
  · have hstep1 : q.push { m with is_anti := true } =
        ⟨q.vec.insertIdx (bsearchIdx q.vec { m with is_anti := true })
          { m with is_anti := true }⟩ := by
      unfold MessageQueue.push
      rw [hnone2]
    rw [hstep1]
    have hfind : ((q.vec.insertIdx (bsearchIdx q.vec { m with is_anti := true })
        { m with is_anti := true }).findIdx? fun t => m.is_inverse_of t) =
          some (bsearchIdx q.vec { m with is_anti := true }) :=
      findIdx?_insertIdx _ { m with is_anti := true }
        (bsearchIdx q.vec { m with is_anti := true }) q.vec
        (bsearchIdx_le_length q.vec { m with is_anti := true }) hall1 hPm
    show (MessageQueue.push
      ⟨q.vec.insertIdx (bsearchIdx q.vec { m with is_anti := true })
        { m with is_anti := true }⟩ m).vec = q.vec
    unfold MessageQueue.push
    rw [hfind]
    show (q.vec.insertIdx (bsearchIdx q.vec { m with is_anti := true })
        { m with is_anti := true }).eraseIdx
        (bsearchIdx q.vec { m with is_anti := true }) = q.vec
    exact List.eraseIdx_insertIdx _ _

/-- C8 counterexample: with a same-identity, different-payload positive message
already stored, `push(m); push(anti(m))` removes the OTHER copy (the inverse
scan matches on identity only, ignoring payload), so the queue contents change
even though `m` is positive and its inverse was not in the queue. -/
theorem claim_C8_counterexample :
    (⟨1, 10, 1, 2, "y", "", 7, false⟩ : Message).is_anti = false ∧
      (∀ x ∈ ((MessageQueue.new.push ⟨1, 10, 1, 2, "", "", 8, false⟩).push
            ⟨1, 10, 1, 2, "x", "", 7, false⟩).vec,
        ¬({ (⟨1, 10, 1, 2, "y", "", 7, false⟩ : Message) with is_anti := true } = x)) ∧
      ((((MessageQueue.new.push ⟨1, 10, 1, 2, "", "", 8, false⟩).push
                ⟨1, 10, 1, 2, "x", "", 7, false⟩).push
              ⟨1, 10, 1, 2, "y", "", 7, false⟩).push
            { (⟨1, 10, 1, 2, "y", "", 7, false⟩ : Message) with is_anti := true }).vec ≠
        ((MessageQueue.new.push ⟨1, 10, 1, 2, "", "", 8, false⟩).push
            ⟨1, 10, 1, 2, "x", "", 7, false⟩).vec :=
  ⟨rfl, by decide, by decide⟩

/-- C8 witness: pushing a positive message and then its anti-message into the
empty queue leaves it empty, in either order. -/
theorem claim_C8_witness :
    ((MessageQueue.new.push ⟨1, 10, 1, 2, "p", "", 3, false⟩).push
          { (⟨1, 10, 1, 2, "p", "", 3, false⟩ : Message) with is_anti := true }).vec =
        MessageQueue.new.vec ∧
      ((MessageQueue.new.push
            { (⟨1, 10, 1, 2, "p", "", 3, false⟩ : Message) with is_anti := true }).push
          ⟨1, 10, 1, 2, "p", "", 3, false⟩).vec = MessageQueue.new.vec :=
  claim_C8 MessageQueue.new ⟨1, 10, 1, 2, "p", "", 3, false⟩ rfl (by decide)

/-- C6: `save_message(m)` fails `InvalidMessage` exactly when `m.is_anti` or `m`
is neither from nor to the manager's id; otherwise, when `m.from = id`, it fails
`TimeViolation` exactly when the last sent message has `sent_ts > m.sent_ts` and
otherwise appends `m` to `sent_messages` changing nothing else; symmetrically
for the receive side (`m.from ≠ id`, hence `m.to = id`) with `received_messages`
and `exec_ts`. -/
theorem claim_C6 {σ : Type} (rm : RollbackManager σ) (m : Message) :
    ((rm.save_message m).1 = .error .invalidMessage ↔
        (m.is_anti = true ∨ (m.«from» ≠ rm.id ∧ m.«to» ≠ rm.id))) ∧
      (¬(m.is_anti = true ∨ (m.«from» ≠ rm.id ∧ m.«to» ≠ rm.id)) →
        (m.«from» = rm.id →
          ((∀ last, rm.sent_messages.getLast? = some last → m.sent_ts < last.sent_ts →
              rm.save_message m = (.error .timeViolation, rm)) ∧
            ((∀ last, rm.sent_messages.getLast? = some last → last.sent_ts ≤ m.sent_ts) →
              rm.save_message m =
                (.ok (), { rm with sent_messages := rm.sent_messages ++ [m] })))) ∧
        (m.«from» ≠ rm.id →
          ((∀ last, rm.received_messages.getLast? = some last → m.exec_ts < last.exec_ts →
              rm.save_message m = (.error .timeViolation, rm)) ∧
            ((∀ last, rm.received_messages.getLast? = some last → last.exec_ts ≤ m.exec_ts) →
              rm.save_message m =
                (.ok (), { rm with received_messages := rm.received_messages ++ [m] }))))) := by
  constructor
  · unfold RollbackManager.save_message
    split
    case isTrue hc => exact iff_of_true rfl hc.symm
    case isFalse hc =>
      refine iff_of_false ?_ fun hh => hc hh.symm
      split <;> split <;> (try split) <;> simp
  · intro hval
    have hc : ¬((m.«from» ≠ rm.id ∧ m.«to» ≠ rm.id) ∨ m.is_anti = true) :=
      fun hh => hval hh.symm
    constructor
    · intro hfrom
      constructor
      · intro last hg hlt
        unfold RollbackManager.save_message
        simp only [if_neg hc, if_pos hfrom, hg, if_pos hlt]
      · intro hle
        unfold RollbackManager.save_message
        cases hg : rm.sent_messages.getLast? with
        | none => simp only [if_neg hc, if_pos hfrom, hg]
        | some last =>
          simp only [if_neg hc, if_pos hfrom, hg, if_neg (not_lt.mpr (hle last hg))]
    · intro hfrom
      constructor
      · intro last hg hlt
        unfold RollbackManager.save_message
        simp only [if_neg hc, if_neg hfrom, hg, if_pos hlt]
      · intro hle
        unfold RollbackManager.save_message
        cases hg : rm.received_messages.getLast? with
        | none => simp only [if_neg hc, if_neg hfrom, hg]
        | some last =>
          simp only [if_neg hc, if_neg hfrom, hg, if_neg (not_lt.mpr (hle last hg))]

/-- C6 witness: a fresh manager with id 1 accepts the positive message
`from 1 to 2` and appends it to `sent_messages`. -/
theorem claim_C6_witness :
    (RollbackManager.new 1 (0 : Nat)).save_message ⟨3, 7, 1, 2, "p", "", 5, false⟩ =
      (.ok (),
        { RollbackManager.new 1 (0 : Nat) with
          sent_messages := [⟨3, 7, 1, 2, "p", "", 5, false⟩] }) :=
  (((claim_C6 (RollbackManager.new 1 (0 : Nat)) ⟨3, 7, 1, 2, "p", "", 5, false⟩).2
        (by decide)).1 (by decide)).2 (by decide)

/-- C4 witness: saving an anti-message into a fresh manager fails and leaves the
manager unchanged. -/
theorem claim_C4_witness :
    ((RollbackManager.new 1 (0 : Nat)).save_message ⟨0, 0, 1, 2, "", "", 5, true⟩).1 =
        .error .invalidMessage ∧
      ((RollbackManager.new 1 (0 : Nat)).save_message ⟨0, 0, 1, 2, "", "", 5, true⟩).2 =
        RollbackManager.new 1 (0 : Nat) :=
  ⟨by decide,
    (claim_C4 (RollbackManager.new 1 (0 : Nat)) ⟨0, 0, 1, 2, "", "", 5, true⟩ 0 0 0
        .invalidMessage .invalidMessage .invalidMessage).1 (by decide)⟩

end DCB
